import Mathlib

/-!
# Verification of the JSXGraph `Math.js` core

A shallow embedding of `src/Math.js`: the dense vector/matrix kernel
(`matVecMult`, `matrix`, `matTranspose`), the memoizing combinator
(`JXG.memoizer`) with `factorial` and `binomial`, the generalized power
`pow`, and the stdform canonicalizer `normalize`.

JavaScript numbers are modelled by `JXG.ExtNum`: an exact real number, or one
of the special values `+Infinity`, `-Infinity`, `NaN`.  Finite arithmetic is
treated exactly (no rounding and no negative zero); the special values follow
the IEEE rules JavaScript arithmetic uses, which is what drives the branch
selection inside `normalize` (`r == Infinity`, `isNaN(r)`, `Math.abs(r) >= 1`).
-/

open Classical

namespace JXG

/-- An idealized JavaScript number: an exact real, `+Infinity`, `-Infinity`
or `NaN`. -/
inductive ExtNum : Type where
  | fin : ℝ → ExtNum
  | inf : ExtNum
  | ninf : ExtNum
  | nan : ExtNum

namespace ExtNum

/-- JavaScript unary minus. -/
def neg : ExtNum → ExtNum
  | fin x => fin (-x)
  | inf => ninf
  | ninf => inf
  | nan => nan

instance : Neg ExtNum := ⟨neg⟩

/-- JavaScript `+` on numbers: `NaN` is absorbing, `Infinity + (-Infinity)`
is `NaN`, finite addition is exact. -/
noncomputable def add : ExtNum → ExtNum → ExtNum
  | nan, _ => nan
  | _, nan => nan
  | inf, ninf => nan
  | ninf, inf => nan
  | inf, _ => inf
  | _, inf => inf
  | ninf, _ => ninf
  | _, ninf => ninf
  | fin x, fin y => fin (x + y)

noncomputable instance : Add ExtNum := ⟨add⟩

/-- JavaScript `*` on numbers: `NaN` is absorbing, `Infinity * 0` is `NaN`,
an infinity times a nonzero finite number keeps the sign rule, finite
multiplication is exact. -/
noncomputable def mul : ExtNum → ExtNum → ExtNum
  | nan, _ => nan
  | _, nan => nan
  | inf, inf => inf
  | inf, ninf => ninf
  | ninf, inf => ninf
  | ninf, ninf => inf
  | inf, fin y => if 0 < y then inf else if y < 0 then ninf else nan
  | fin x, inf => if 0 < x then inf else if x < 0 then ninf else nan
  | ninf, fin y => if 0 < y then ninf else if y < 0 then inf else nan
  | fin x, ninf => if 0 < x then ninf else if x < 0 then inf else nan
  | fin x, fin y => fin (x * y)

noncomputable instance : Mul ExtNum := ⟨mul⟩

/-- JavaScript `/` on numbers: `NaN` is absorbing, `∞/∞` is `NaN`, a finite
number divided by an infinity is `0`, division of a nonzero finite number by
`0` gives a signed infinity (`0/0` is `NaN`), finite division is exact. -/
noncomputable def div : ExtNum → ExtNum → ExtNum
  | nan, _ => nan
  | _, nan => nan
  | inf, inf => nan
  | inf, ninf => nan
  | ninf, inf => nan
  | ninf, ninf => nan
  | inf, fin y => if 0 ≤ y then inf else ninf
  | ninf, fin y => if 0 ≤ y then ninf else inf
  | fin _, inf => fin 0
  | fin _, ninf => fin 0
  | fin x, fin y =>
      if y = 0 then (if 0 < x then inf else if x < 0 then ninf else nan)
      else fin (x / y)

noncomputable instance : Div ExtNum := ⟨div⟩

/-- JavaScript `-` on numbers, as `x + (-y)`. -/
noncomputable def sub (x y : ExtNum) : ExtNum := x + (-y)

noncomputable instance : Sub ExtNum := ⟨sub⟩

/-- `Math.abs`. -/
def abs : ExtNum → ExtNum
  | fin x => fin |x|
  | nan => nan
  | _ => inf

/-- `Math.sqrt`: `NaN` on negative inputs (and on `-Infinity` and `NaN`). -/
noncomputable def sqrt : ExtNum → ExtNum
  | fin x => if x < 0 then nan else fin (Real.sqrt x)
  | inf => inf
  | ninf => nan
  | nan => nan

/-- JavaScript `<=` on numbers: any comparison with `NaN` is false. -/
def jsLe : ExtNum → ExtNum → Prop
  | nan, _ => False
  | _, nan => False
  | ninf, _ => True
  | _, inf => True
  | inf, _ => False
  | _, ninf => False
  | fin x, fin y => x ≤ y

end ExtNum

/-- The 8-slot stdform record `[c, b0, b1, a, k, r, q0, q1]` of `Math.js`. -/
@[ext]
structure Stdform : Type where
  c : ExtNum
  b0 : ExtNum
  b1 : ExtNum
  a : ExtNum
  k : ExtNum
  r : ExtNum
  q0 : ExtNum
  q1 : ExtNum

namespace Math

/-- `JXG.Math.matrix(n, m, init)`: the `n × m` matrix (rows of columns) with
every entry `init`; the two nested loops fill every entry of the allocated
rows, which is `List.replicate` twice. -/
def matrix (n m : ℕ) (init : ℝ) : List (List ℝ) :=
  List.replicate n (List.replicate m init)

/-- `JXG.Math.matTranspose(M)`: `m = M.length`, `n = M.length > 0 ?
M[0].length : 0`; allocates `matrix(n, m)` and overwrites every entry
`MT[i][j]` (for `i < n`, `j < m`) with `M[j][i]` — written here directly as
the row map that overwriting every entry produces.  Out-of-range reads
(impossible on a rectangular input) default to `0`. -/
def matTranspose (M : List (List ℝ)) : List (List ℝ) :=
  let m := M.length
  let n := (M.headD []).length
  (List.range n).map (fun i => (List.range m).map (fun j => (M.getD j []).getD i 0))

/-- `JXG.Math.matVecMult(mat, vec)`: the unrolled fast path when
`vec.length == 3`, the general accumulation loop otherwise.  Out-of-range
reads (impossible on conformant shapes) default to `0`. -/
def matVecMult (mat : List (List ℝ)) (vec : List ℝ) : List ℝ :=
  if vec.length = 3 then
    mat.map (fun row =>
      row.getD 0 0 * vec.getD 0 0 + row.getD 1 0 * vec.getD 1 0 +
        row.getD 2 0 * vec.getD 2 0)
  else
    mat.map (fun row =>
      (List.range vec.length).foldl (fun s k => s + row.getD k 0 * vec.getD k 0) 0)

/-- The general accumulation-loop path of `matVecMult` (`s = 0; s +=
mat[i][k]*vec[k]` for `k = 0 .. vec.length - 1`), taken on its own: the
reference path the unrolled `n == 3` branch is compared against. -/
def matVecMultGeneralPath (mat : List (List ℝ)) (vec : List ℝ) : List ℝ :=
  mat.map (fun row =>
    (List.range vec.length).foldl (fun s k => s + row.getD k 0 * vec.getD k 0) 0)

/-- `JXG.Math.pow(a, b)`: `0^0 = 1` and `0^b = 0` before anything else;
`Math.pow(a, b)` (the exact real power `a ^ ⌊b⌋`) when `Math.floor(b) == b`;
`Math.exp(b * Math.log(Math.abs(a)))` for non-integer `b` and `a > 0`;
`NaN` otherwise. -/
noncomputable def pow (a b : ℝ) : ExtNum :=
  if a = 0 then (if b = 0 then ExtNum.fin 1 else ExtNum.fin 0)
  else if (⌊b⌋ : ℝ) = b then ExtNum.fin (a ^ ⌊b⌋)
  else if 0 < a then ExtNum.fin (Real.exp (b * Real.log |a|))
  else ExtNum.nan

/-- `Math.js`'s `factorial` (the raw function passed to `JXG.memoizer`; the
recursion goes through `arguments.callee`, i.e. this very function): `NaN`
for `n < 0`, `1` for `n ∈ {0, 1}`, else `n * factorial(n - 1)`.  The argument
is any JavaScript number, so the domain here is all of `ℝ`; each call
decreases the argument by exactly `1`, so `⌈n⌉₊` decreases and the recursion
terminates on every real input. -/
noncomputable def factorial (n : ℝ) : ExtNum :=
  if n < 0 then ExtNum.nan
  else if n = 0 ∨ n = 1 then ExtNum.fin 1
  else ExtNum.fin n * factorial (n - 1)
termination_by ⌈n⌉₊
decreasing_by
  have h0 : 0 ≤ n := not_lt.mp (by assumption)
  have hne : n ≠ 0 := fun hh => absurd (Or.inl hh) (by assumption)
  have hpos : 0 < n := lt_of_le_of_ne h0 (Ne.symm hne)
  have hceil : 0 < ⌈n⌉₊ := Nat.ceil_pos.mpr hpos
  have hle : ⌈n - 1⌉₊ ≤ ⌈n⌉₊ - 1 := by
    apply Nat.ceil_le.mpr
    have hcast : ((⌈n⌉₊ - 1 : ℕ) : ℝ) = (⌈n⌉₊ : ℝ) - 1 := by
      push_cast [Nat.cast_sub hceil]
      ring
    rw [hcast]
    have := Nat.le_ceil n
    linarith
  exact lt_of_le_of_lt hle (Nat.sub_lt hceil one_pos)

/-- `Math.js`'s `binomial` (the raw function passed to `JXG.memoizer`):
`0` when `k > n` or `k < 0`, `1` when `k == 0` or `k == n`, otherwise the
loop `b = 1; for (i = 0; i < k; i++) { b *= (n - i); b /= (i + 1); }`. -/
noncomputable def binomial (n k : ℤ) : ℝ :=
  if k > n ∨ k < 0 then 0
  else if k = 0 ∨ k = n then 1
  else (List.range k.toNat).foldl (fun b i => b * ((n : ℝ) - (i : ℕ)) / ((i : ℕ) + 1)) 1

/-- `JXG.Math.normalize(stdform)`: writes the derived radius `r = k/(2a)` and
center `(q0, q1) = (-b0/(2a), -b1/(2a))` into slots 5–7 first, then rewrites
slots 0–4 in one of three regimes selected on `r`: the degenerate-line regime
(`r == Infinity || isNaN(r)`), the large-radius regime (`Math.abs(r) >= 1`),
and the general small-radius regime otherwise. -/
noncomputable def normalize (stdform : Stdform) : Stdform :=
  let a2 : ExtNum := ExtNum.fin 2 * stdform.a
  let r : ExtNum := stdform.k / a2
  let q0 : ExtNum := (-stdform.b0) / a2
  let q1 : ExtNum := (-stdform.b1) / a2
  if r = ExtNum.inf ∨ r = ExtNum.nan then
    let n : ExtNum := ExtNum.sqrt (stdform.b0 * stdform.b0 + stdform.b1 * stdform.b1)
    { c := stdform.c / n, b0 := stdform.b0 / n, b1 := stdform.b1 / n,
      a := ExtNum.fin 0, k := ExtNum.fin 1, r := r, q0 := q0, q1 := q1 }
  else if ExtNum.jsLe (ExtNum.fin 1) (ExtNum.abs r) then
    { c := (q0 * q0 + q1 * q1 - r * r) / (ExtNum.fin 2 * r),
      b0 := (-q0) / r, b1 := (-q1) / r,
      a := ExtNum.fin 1 / (ExtNum.fin 2 * r), k := ExtNum.fin 1,
      r := r, q0 := q0, q1 := q1 }
  else
    let signr : ExtNum := if ExtNum.jsLe r (ExtNum.fin 0) then ExtNum.fin (-1) else ExtNum.fin 1
    { c := signr * (q0 * q0 + q1 * q1 - r * r) * ExtNum.fin 0.5,
      b0 := (-signr) * q0, b1 := (-signr) * q1,
      a := signr / ExtNum.fin 2, k := signr * r,
      r := r, q0 := q0, q1 := q1 }

end Math

/-- The state of a cache produced by `JXG.memoizer`'s closure: the keyed
results, newest first.  The key of a call is its argument (the code joins the
argument tuple into a string; on the numeric tuples this core uses, that
keying separates exactly the distinct tuples). -/
def cacheLookup {α β : Type} [DecidableEq α] : List (α × β) → α → Option β
  | [], _ => none
  | p :: rest, x => if x = p.1 then some p.2 else cacheLookup rest x

/-- One call of the function `JXG.memoizer(f)` returns: look the key up, on a
hit return the cached value and leave the cache alone, on a miss evaluate `f`
once and record the result.  The `Bool` reports whether `f` was evaluated. -/
def memoApply {α β : Type} [DecidableEq α] (f : α → β) (cache : List (α × β)) (x : α) :
    β × List (α × β) × Bool :=
  match cacheLookup cache x with
  | some v => (v, cache, false)
  | none => (f x, (x, f x) :: cache, true)

/-- A sequence of calls of the wrapped function, threading the cache and
counting how many times the underlying `f` was actually evaluated. -/
def memoRun {α β : Type} [DecidableEq α] (f : α → β) :
    List α → List (α × β) → List β × List (α × β) × ℕ
  | [], cache => ([], cache, 0)
  | x :: xs, cache =>
      let one := memoApply f cache x
      let rest := memoRun f xs one.2.1
      (one.1 :: rest.1, rest.2.1, (if one.2.2 then 1 else 0) + rest.2.2)

/-- A JavaScript function object as `JXG.memoizer` sees it: the underlying
pure function together with its `memo` property — `none` when unwrapped,
`some w` once a wrapper (identified by the id of the cache closure `w` it
closes over) has been attached. -/
structure FnObj (α β : Type) : Type where
  raw : α → β
  memo : Option ℕ

/-- `JXG.memoizer(f)`: if `f.memo` is set, return the existing wrapper;
otherwise allocate a fresh cache closure, store it in `f.memo` and return it.
Returns the (possibly updated) function object, the wrapper returned to the
caller, and the next fresh id. -/
def memoizer {α β : Type} (f : FnObj α β) (fresh : ℕ) : FnObj α β × ℕ × ℕ :=
  match f.memo with
  | some w => (f, w, fresh)
  | none => ({ raw := f.raw, memo := some fresh }, fresh, fresh + 1)

/-- A cache is faithful to `f` when every stored value is `f` of its key. -/
def FaithfulCache {α β : Type} (f : α → β) (cache : List (α × β)) : Prop :=
  ∀ p ∈ cache, p.2 = f p.1

/-! ## Computation rules for the JavaScript number model -/

namespace ExtNum

@[simp] theorem neg_fin (x : ℝ) : -(fin x) = fin (-x) := rfl

@[simp] theorem neg_inf_eq : -inf = ninf := rfl

@[simp] theorem neg_ninf_eq : -ninf = inf := rfl

@[simp] theorem neg_nan_eq : -nan = nan := rfl

@[simp] theorem fin_add_fin (x y : ℝ) : fin x + fin y = fin (x + y) := rfl

@[simp] theorem nan_add (x : ExtNum) : nan + x = nan := by cases x <;> rfl

@[simp] theorem add_nan (x : ExtNum) : x + nan = nan := by cases x <;> rfl

@[simp] theorem inf_add_fin (x : ℝ) : inf + fin x = inf := rfl

@[simp] theorem fin_add_inf (x : ℝ) : fin x + inf = inf := rfl

@[simp] theorem ninf_add_fin (x : ℝ) : ninf + fin x = ninf := rfl

@[simp] theorem fin_add_ninf (x : ℝ) : fin x + ninf = ninf := rfl

@[simp] theorem inf_add_inf : inf + inf = inf := rfl

@[simp] theorem ninf_add_ninf : ninf + ninf = ninf := rfl

@[simp] theorem inf_add_ninf : inf + ninf = nan := rfl

@[simp] theorem ninf_add_inf : ninf + inf = nan := rfl

@[simp] theorem fin_mul_fin (x y : ℝ) : fin x * fin y = fin (x * y) := rfl

@[simp] theorem nan_mul (x : ExtNum) : nan * x = nan := by cases x <;> rfl

@[simp] theorem mul_nan (x : ExtNum) : x * nan = nan := by cases x <;> rfl

@[simp] theorem ninf_mul_ninf : ninf * ninf = inf := rfl

@[simp] theorem inf_mul_inf : inf * inf = inf := rfl

theorem fin_mul_ninf_of_pos {x : ℝ} (h : 0 < x) : fin x * ninf = ninf := by
  show mul _ _ = _
  simp [mul, h]

theorem fin_mul_inf_of_pos {x : ℝ} (h : 0 < x) : fin x * inf = inf := by
  show mul _ _ = _
  simp [mul, h]

@[simp] theorem fin_sub_fin (x y : ℝ) : fin x - fin y = fin (x - y) := by
  show fin x + -(fin y) = fin (x - y)
  rw [neg_fin, fin_add_fin, sub_eq_add_neg]

@[simp] theorem nan_sub (x : ExtNum) : nan - x = nan := by cases x <;> rfl

@[simp] theorem sub_nan (x : ExtNum) : x - nan = nan := by cases x <;> rfl

@[simp] theorem nan_div (x : ExtNum) : nan / x = nan := by cases x <;> rfl

@[simp] theorem div_nan (x : ExtNum) : x / nan = nan := by cases x <;> rfl

@[simp] theorem inf_div_ninf : inf / ninf = nan := rfl

@[simp] theorem inf_div_inf : inf / inf = nan := rfl

@[simp] theorem fin_div_inf (x : ℝ) : fin x / inf = fin 0 := rfl

@[simp] theorem fin_div_ninf (x : ℝ) : fin x / ninf = fin 0 := rfl

theorem fin_div_fin {y : ℝ} (x : ℝ) (h : y ≠ 0) : fin x / fin y = fin (x / y) := by
  show div _ _ = _
  simp [div, h]

theorem fin_div_zero_pos {x : ℝ} (h : 0 < x) : fin x / fin 0 = inf := by
  show div _ _ = _
  simp [div, h]

theorem fin_div_zero_neg {x : ℝ} (h : x < 0) : fin x / fin 0 = ninf := by
  show div _ _ = _
  simp [div, not_lt.mpr h.le, h]

@[simp] theorem zero_div_zero : fin 0 / fin 0 = nan := by
  show div _ _ = _
  simp [div]

theorem inf_div_fin_nonneg {y : ℝ} (h : 0 ≤ y) : inf / fin y = inf := by
  show div _ _ = _
  simp [div, h]

theorem ninf_div_fin_nonneg {y : ℝ} (h : 0 ≤ y) : ninf / fin y = ninf := by
  show div _ _ = _
  simp [div, h]

@[simp] theorem abs_fin (x : ℝ) : abs (fin x) = fin |x| := rfl

@[simp] theorem abs_inf_eq : abs inf = inf := rfl

@[simp] theorem abs_ninf_eq : abs ninf = inf := rfl

@[simp] theorem abs_nan_eq : abs nan = nan := rfl

theorem sqrt_fin_of_nonneg {x : ℝ} (h : 0 ≤ x) : sqrt (fin x) = fin (Real.sqrt x) := by
  simp [sqrt, not_lt.mpr h]

@[simp] theorem jsLe_fin_fin (x y : ℝ) : jsLe (fin x) (fin y) ↔ x ≤ y := Iff.rfl

@[simp] theorem jsLe_fin_inf (x : ℝ) : jsLe (fin x) inf := trivial

@[simp] theorem not_jsLe_fin_nan (x : ExtNum) : ¬ jsLe x nan := by cases x <;> exact not_false

/-- Dividing the numerator by a positive finite number does not change the
outcome of a division by (positive) zero: the sign pattern is preserved. -/
theorem fin_div_zero_congr {n : ℝ} (u : ℝ) (hn : 0 < n) :
    fin (u / n) / fin 0 = fin u / fin 0 := by
  rcases lt_trichotomy u 0 with h | h | h
  · rw [fin_div_zero_neg (div_neg_of_neg_of_pos h hn), fin_div_zero_neg h]
  · subst h
    rw [zero_div]
  · rw [fin_div_zero_pos (div_pos h hn), fin_div_zero_pos h]

end ExtNum

/-! ## Branch-evaluation lemmas for `normalize` -/

namespace Math

open ExtNum

/-- Degenerate-to-line regime of `normalize`, evaluated on a line input
(slot 3 equal to `0`, normal vector not both zero, `k ≥ 0` so that the
derived `r = k/0` is `+Infinity` or `NaN` and the first branch fires). -/
theorem normalize_line_eval (c b0 b1 k : ℝ) (x y z : ExtNum)
    (hb : b0 * b0 + b1 * b1 ≠ 0) (hk : 0 ≤ k) :
    normalize ⟨fin c, fin b0, fin b1, fin 0, fin k, x, y, z⟩ =
      ⟨fin (c / Real.sqrt (b0 * b0 + b1 * b1)),
       fin (b0 / Real.sqrt (b0 * b0 + b1 * b1)),
       fin (b1 / Real.sqrt (b0 * b0 + b1 * b1)),
       fin 0, fin 1, fin k / fin 0, fin (-b0) / fin 0, fin (-b1) / fin 0⟩ := by
  have hsum : 0 < b0 * b0 + b1 * b1 :=
    lt_of_le_of_ne (add_nonneg (mul_self_nonneg b0) (mul_self_nonneg b1)) (Ne.symm hb)
  have hsqrt : Real.sqrt (b0 * b0 + b1 * b1) ≠ 0 :=
    ne_of_gt (Real.sqrt_pos.mpr hsum)
  rcases lt_or_eq_of_le hk with hkpos | hk0
  · simp [normalize, fin_div_zero_pos hkpos, sqrt_fin_of_nonneg hsum.le,
      fin_div_fin _ hsqrt]
  · simp [normalize, ← hk0, sqrt_fin_of_nonneg hsum.le, fin_div_fin _ hsqrt]

/-- Large-radius regime of `normalize`, evaluated on a circle input with
`a ≠ 0` and `|r| ≥ 1` for the derived radius `r = k/(2a)`. -/
theorem normalize_large_eval (c b0 b1 a k : ℝ) (x y z : ExtNum) (ha : a ≠ 0)
    (hr : 1 ≤ |k / (2 * a)|) :
    normalize ⟨fin c, fin b0, fin b1, fin a, fin k, x, y, z⟩ =
      ⟨fin (((-b0 / (2 * a)) * (-b0 / (2 * a)) + (-b1 / (2 * a)) * (-b1 / (2 * a)) -
              k / (2 * a) * (k / (2 * a))) / (2 * (k / (2 * a)))),
       fin (-(-b0 / (2 * a)) / (k / (2 * a))),
       fin (-(-b1 / (2 * a)) / (k / (2 * a))),
       fin (1 / (2 * (k / (2 * a)))),
       fin 1, fin (k / (2 * a)), fin (-b0 / (2 * a)), fin (-b1 / (2 * a))⟩ := by
  have h2a : 2 * a ≠ 0 := mul_ne_zero two_ne_zero ha
  have hrne : k / (2 * a) ≠ 0 := by
    intro h0
    rw [h0] at hr
    norm_num at hr
  have h2r : 2 * (k / (2 * a)) ≠ 0 := mul_ne_zero two_ne_zero hrne
  simp [normalize, fin_div_fin _ h2a, fin_div_fin _ hrne, fin_div_fin _ h2r, hr]

/-- Small-radius regime of `normalize` with nonpositive derived radius
(`signr = -1`), evaluated on a circle input with `a ≠ 0`, `|r| < 1` and
`r ≤ 0`. -/
theorem normalize_small_nonpos_eval (c b0 b1 a k : ℝ) (x y z : ExtNum) (ha : a ≠ 0)
    (hr : |k / (2 * a)| < 1) (hsgn : k / (2 * a) ≤ 0) :
    normalize ⟨fin c, fin b0, fin b1, fin a, fin k, x, y, z⟩ =
      ⟨fin (-1 * ((-b0 / (2 * a)) * (-b0 / (2 * a)) + (-b1 / (2 * a)) * (-b1 / (2 * a)) -
              k / (2 * a) * (k / (2 * a))) * 0.5),
       fin (-(-1) * (-b0 / (2 * a))),
       fin (-(-1) * (-b1 / (2 * a))),
       fin (-1 / 2), fin (-1 * (k / (2 * a))),
       fin (k / (2 * a)), fin (-b0 / (2 * a)), fin (-b1 / (2 * a))⟩ := by
  have h2a : 2 * a ≠ 0 := mul_ne_zero two_ne_zero ha
  simp [normalize, fin_div_fin _ h2a, not_le.mpr hr, hsgn,
    fin_div_fin _ (two_ne_zero (α := ℝ))]

/-- Small-radius regime of `normalize` with positive derived radius
(`signr = 1`), evaluated on a circle input with `a ≠ 0`, `|r| < 1` and
`r > 0`. -/
theorem normalize_small_pos_eval (c b0 b1 a k : ℝ) (x y z : ExtNum) (ha : a ≠ 0)
    (hr : |k / (2 * a)| < 1) (hsgn : 0 < k / (2 * a)) :
    normalize ⟨fin c, fin b0, fin b1, fin a, fin k, x, y, z⟩ =
      ⟨fin (1 * ((-b0 / (2 * a)) * (-b0 / (2 * a)) + (-b1 / (2 * a)) * (-b1 / (2 * a)) -
              k / (2 * a) * (k / (2 * a))) * 0.5),
       fin (-1 * (-b0 / (2 * a))),
       fin (-1 * (-b1 / (2 * a))),
       fin (1 / 2), fin (1 * (k / (2 * a))),
       fin (k / (2 * a)), fin (-b0 / (2 * a)), fin (-b1 / (2 * a))⟩ := by
  have h2a : 2 * a ≠ 0 := mul_ne_zero two_ne_zero ha
  simp [normalize, fin_div_fin _ h2a, not_le.mpr hr, not_le.mpr hsgn,
    fin_div_fin _ (two_ne_zero (α := ℝ))]

/-! ## Claim C1: the large-radius regime of `normalize` -/

/-- C1 (amended): for every stdform input in the large-radius regime (finite
`r = k/(2a)` with `|r| >= 1`, i.e. `a ≠ 0`), `normalize` rebuilds slots 0–4
from the pre-computed center `(q0, q1) = (-b0/(2a), -b1/(2a))` and radius `r`
as `c = (q0² + q1² - r²)/(2r)`, `b0 = -q0/r`, `b1 = -q1/r`, `a = 1/(2r)`;
the slot normalized to `1` is slot 4 (`k`), while slot 3 (`a`) becomes
`1/(2r)` (not `1`, as the claim stated). -/
theorem c1_normalize_large_radius_rebuild (c b0 b1 a k Q0 Q1 R : ℝ) (x y z : ExtNum)
    (ha : a ≠ 0) (hQ0 : Q0 = -b0 / (2 * a)) (hQ1 : Q1 = -b1 / (2 * a))
    (hR : R = k / (2 * a)) (hr : 1 ≤ |R|) :
    normalize ⟨fin c, fin b0, fin b1, fin a, fin k, x, y, z⟩ =
      ⟨fin ((Q0 * Q0 + Q1 * Q1 - R * R) / (2 * R)), fin (-Q0 / R), fin (-Q1 / R),
       fin (1 / (2 * R)), fin 1, fin R, fin Q0, fin Q1⟩ := by
  subst hQ0 hQ1 hR
  exact normalize_large_eval c b0 b1 a k x y z ha hr

/-- Witness for C1 at the concrete circle stdform `[0, 0, 0, 1/2, 2]`
(derived radius `r = 2`): slot 3 of the output is `1/(2·2) = 1/4` and slot 4
is `1`. -/
theorem c1_normalize_large_radius_rebuild_witness :
    normalize ⟨fin 0, fin 0, fin 0, fin (1/2), fin 2, fin 0, fin 0, fin 0⟩ =
      ⟨fin ((0 * 0 + 0 * 0 - 2 * 2) / (2 * 2)), fin (-0 / 2), fin (-0 / 2),
       fin (1 / (2 * 2)), fin 1, fin 2, fin 0, fin 0⟩ :=
  c1_normalize_large_radius_rebuild 0 0 0 (1/2) 2 0 0 2 (fin 0) (fin 0) (fin 0)
    (by norm_num) (by norm_num) (by norm_num) (by norm_num) (by norm_num)

/-- C1 counterexample: on the circle stdform `[0, 0, 0, 1/2, 2]` (finite
derived radius `r = 2`, `|r| ≥ 1`), the output's slot 3 (the quadratic
coefficient `a`) is `1/4`, not `1` as the claim states. -/
theorem c1_counterexample :
    (normalize ⟨fin 0, fin 0, fin 0, fin (1/2), fin 2, fin 0, fin 0, fin 0⟩).a
        = fin (1/4) ∧
      (normalize ⟨fin 0, fin 0, fin 0, fin (1/2), fin 2, fin 0, fin 0, fin 0⟩).a
        ≠ fin 1 := by
  have h := normalize_large_eval 0 0 0 (1/2) 2 (fin 0) (fin 0) (fin 0)
    (by norm_num) (by norm_num)
  rw [h]
  norm_num

/-! ## Claim C2: idempotence of `normalize` -/

/-- C2 (amended): `normalize` is an exact fixed point on its own output for
every circle input (`a ≠ 0`, so the derived `r = k/(2a)` is finite — both the
large- and the small-radius regime) and for every line input (`a = 0`,
`(b0, b1) ≠ (0, 0)`) with `k > 0`.  (For line inputs with `k ≤ 0` the second
application differs in slot 5: see the counterexample.) -/
theorem c2_normalize_idempotent (c b0 b1 a k : ℝ) (x y z : ExtNum)
    (h : a ≠ 0 ∨ (0 < k ∧ ¬(b0 = 0 ∧ b1 = 0))) :
    normalize (normalize ⟨fin c, fin b0, fin b1, fin a, fin k, x, y, z⟩) =
      normalize ⟨fin c, fin b0, fin b1, fin a, fin k, x, y, z⟩ := by
  by_cases ha : a = 0
  · subst ha
    obtain ⟨hk, hb⟩ : 0 < k ∧ ¬(b0 = 0 ∧ b1 = 0) := h.resolve_left (by simp)
    have hsum : b0 * b0 + b1 * b1 ≠ 0 := by
      intro h0
      have hb0 : b0 = 0 := by nlinarith [mul_self_nonneg b0, mul_self_nonneg b1]
      have hb1 : b1 = 0 := by nlinarith [mul_self_nonneg b0, mul_self_nonneg b1]
      exact hb ⟨hb0, hb1⟩
    have hspos : 0 < b0 * b0 + b1 * b1 :=
      lt_of_le_of_ne (add_nonneg (mul_self_nonneg b0) (mul_self_nonneg b1)) (Ne.symm hsum)
    have hnpos : 0 < Real.sqrt (b0 * b0 + b1 * b1) := Real.sqrt_pos.mpr hspos
    have hone : b0 / Real.sqrt (b0 * b0 + b1 * b1) * (b0 / Real.sqrt (b0 * b0 + b1 * b1)) +
        b1 / Real.sqrt (b0 * b0 + b1 * b1) * (b1 / Real.sqrt (b0 * b0 + b1 * b1)) = 1 := by
      rw [div_mul_div_comm, div_mul_div_comm, Real.mul_self_sqrt hspos.le, div_add_div_same]
      exact div_self hsum
    rw [normalize_line_eval c b0 b1 k x y z hsum hk.le]
    have h2 := normalize_line_eval (c / Real.sqrt (b0 * b0 + b1 * b1))
      (b0 / Real.sqrt (b0 * b0 + b1 * b1)) (b1 / Real.sqrt (b0 * b0 + b1 * b1)) 1
      (fin k / fin 0) (fin (-b0) / fin 0) (fin (-b1) / fin 0)
      (by rw [hone]; exact one_ne_zero) zero_le_one
    rw [h2, hone, Real.sqrt_one]
    simp only [Stdform.mk.injEq]
    refine ⟨by rw [div_one], by rw [div_one], by rw [div_one], trivial, trivial, ?_, ?_, ?_⟩
    · rw [fin_div_zero_pos hk, fin_div_zero_pos (one_pos (α := ℝ))]
    · rw [show -(b0 / Real.sqrt (b0 * b0 + b1 * b1)) = -b0 / Real.sqrt (b0 * b0 + b1 * b1)
        from (neg_div _ _).symm, fin_div_zero_congr (-b0) hnpos]
    · rw [show -(b1 / Real.sqrt (b0 * b0 + b1 * b1)) = -b1 / Real.sqrt (b0 * b0 + b1 * b1)
        from (neg_div _ _).symm, fin_div_zero_congr (-b1) hnpos]
  · have h2a : 2 * a ≠ 0 := mul_ne_zero two_ne_zero ha
    rcases le_or_lt 1 |k / (2 * a)| with hlarge | hsmall
    · have hrne : k / (2 * a) ≠ 0 := by
        intro h0
        rw [h0] at hlarge
        norm_num at hlarge
      have h2r : 2 * (k / (2 * a)) ≠ 0 := mul_ne_zero two_ne_zero hrne
      rw [normalize_large_eval c b0 b1 a k x y z ha hlarge]
      have ha' : (1 : ℝ) / (2 * (k / (2 * a))) ≠ 0 := one_div_ne_zero h2r
      have hk0 : k ≠ 0 := by
        intro h0
        exact hrne (by rw [h0, zero_div])
      have hkey : (1 : ℝ) / (2 * (1 / (2 * (k / (2 * a))))) = k / (2 * a) := by
        field_simp
        ring
      have hr' : 1 ≤ |(1 : ℝ) / (2 * (1 / (2 * (k / (2 * a)))))| := by
        rw [hkey]; exact hlarge
      have h2 := normalize_large_eval
        ((-b0 / (2 * a) * (-b0 / (2 * a)) + -b1 / (2 * a) * (-b1 / (2 * a)) -
            k / (2 * a) * (k / (2 * a))) / (2 * (k / (2 * a))))
        (-(-b0 / (2 * a)) / (k / (2 * a))) (-(-b1 / (2 * a)) / (k / (2 * a)))
        (1 / (2 * (k / (2 * a)))) 1 (fin (k / (2 * a))) (fin (-b0 / (2 * a)))
        (fin (-b1 / (2 * a))) ha' hr'
      rw [h2]
      have hq0key : -(-(-b0 / (2 * a)) / (k / (2 * a))) / (2 * (1 / (2 * (k / (2 * a))))) =
          -b0 / (2 * a) := by
        field_simp
        ring
      have hq1key : -(-(-b1 / (2 * a)) / (k / (2 * a))) / (2 * (1 / (2 * (k / (2 * a))))) =
          -b1 / (2 * a) := by
        field_simp
        ring
      rw [hq0key, hq1key, hkey]
    · rcases le_or_lt (k / (2 * a)) 0 with hsgn | hsgn
      · rw [normalize_small_nonpos_eval c b0 b1 a k x y z ha hsmall hsgn]
        have hkey : -1 * (k / (2 * a)) / (2 * (-1 / 2 : ℝ)) = k / (2 * a) := by
          ring
        have h2 := normalize_small_nonpos_eval
          (-1 * (-b0 / (2 * a) * (-b0 / (2 * a)) + -b1 / (2 * a) * (-b1 / (2 * a)) -
              k / (2 * a) * (k / (2 * a))) * 0.5)
          (- -1 * (-b0 / (2 * a))) (- -1 * (-b1 / (2 * a))) (-1 / 2) (-1 * (k / (2 * a)))
          (fin (k / (2 * a))) (fin (-b0 / (2 * a))) (fin (-b1 / (2 * a)))
          (by norm_num) (by rw [hkey]; exact hsmall) (by rw [hkey]; exact hsgn)
        rw [h2]
        have hq0key : -(- -1 * (-b0 / (2 * a))) / (2 * (-1 / 2 : ℝ)) = -b0 / (2 * a) := by
          ring
        have hq1key : -(- -1 * (-b1 / (2 * a))) / (2 * (-1 / 2 : ℝ)) = -b1 / (2 * a) := by
          ring
        rw [hq0key, hq1key, hkey]
      · rw [normalize_small_pos_eval c b0 b1 a k x y z ha hsmall hsgn]
        have hkey : 1 * (k / (2 * a)) / (2 * (1 / 2 : ℝ)) = k / (2 * a) := by
          ring
        have h2 := normalize_small_pos_eval
          (1 * (-b0 / (2 * a) * (-b0 / (2 * a)) + -b1 / (2 * a) * (-b1 / (2 * a)) -
              k / (2 * a) * (k / (2 * a))) * 0.5)
          (-1 * (-b0 / (2 * a))) (-1 * (-b1 / (2 * a))) (1 / 2) (1 * (k / (2 * a)))
          (fin (k / (2 * a))) (fin (-b0 / (2 * a))) (fin (-b1 / (2 * a)))
          (by norm_num) (by rw [hkey]; exact hsmall) (by rw [hkey]; exact hsgn)
        rw [h2]
        have hq0key : -(-1 * (-b0 / (2 * a))) / (2 * (1 / 2 : ℝ)) = -b0 / (2 * a) := by
          ring
        have hq1key : -(-1 * (-b1 / (2 * a))) / (2 * (1 / 2 : ℝ)) = -b1 / (2 * a) := by
          ring
        rw [hq0key, hq1key, hkey]

/-- Witness for C2 at the concrete circle stdform `[0, 0, 0, 1/2, 2]`. -/
theorem c2_normalize_idempotent_witness :
    normalize (normalize ⟨fin 0, fin 0, fin 0, fin (1/2), fin 2, fin 0, fin 0, fin 0⟩) =
      normalize ⟨fin 0, fin 0, fin 0, fin (1/2), fin 2, fin 0, fin 0, fin 0⟩ :=
  c2_normalize_idempotent 0 0 0 (1/2) 2 (fin 0) (fin 0) (fin 0) (Or.inl (by norm_num))

/-- C2 counterexample: the valid line stdform `[0, 1, 0, 0, 0]` (`a = 0`,
`(b0, b1) = (1, 0) ≠ (0, 0)`, `k = 0`) is not a fixed point: the first
`normalize` stores `r = 0/0 = NaN` into slot 5, the second stores
`r = 1/0 = Infinity`, so the eight slots are not exactly unchanged. -/
theorem c2_counterexample :
    (normalize ⟨fin 0, fin 1, fin 0, fin 0, fin 0, fin 0, fin 0, fin 0⟩).r = ExtNum.nan ∧
    (normalize (normalize ⟨fin 0, fin 1, fin 0, fin 0, fin 0, fin 0, fin 0, fin 0⟩)).r
        = ExtNum.inf ∧
    normalize (normalize ⟨fin 0, fin 1, fin 0, fin 0, fin 0, fin 0, fin 0, fin 0⟩) ≠
      normalize ⟨fin 0, fin 1, fin 0, fin 0, fin 0, fin 0, fin 0, fin 0⟩ := by
  have hb : (1 : ℝ) * 1 + 0 * 0 ≠ 0 := by norm_num
  have hs : Real.sqrt ((1 : ℝ) * 1 + 0 * 0) = 1 := by
    rw [show ((1 : ℝ) * 1 + 0 * 0) = 1 by norm_num, Real.sqrt_one]
  have h1 := normalize_line_eval 0 1 0 0 (fin 0) (fin 0) (fin 0) hb le_rfl
  have h2 := normalize_line_eval (0 / Real.sqrt ((1 : ℝ) * 1 + 0 * 0))
    (1 / Real.sqrt ((1 : ℝ) * 1 + 0 * 0)) (0 / Real.sqrt ((1 : ℝ) * 1 + 0 * 0)) 1
    (fin 0 / fin 0) (fin (-1) / fin 0) (fin (-0) / fin 0)
    (by rw [hs]; norm_num) zero_le_one
  refine ⟨?_, ?_, ?_⟩
  · rw [h1]
    simp
  · rw [h1, h2]
    simp [fin_div_zero_pos (one_pos (α := ℝ))]
  · rw [h1, h2]
    intro heq
    have hreq := congrArg Stdform.r heq
    simp [fin_div_zero_pos (one_pos (α := ℝ))] at hreq

/-! ## Claim C3: regime selection of `normalize` -/

/-- C3 (amended): a line input (`a = 0`, `(b0, b1) ≠ (0, 0)`) with `k ≥ 0`
yields slot 3 `= 0`, slot 4 `= 1` and slots 1–2 forming a unit vector (the
claim's unrestricted line part fails for `k < 0`: see the counterexample);
and a circle input whose derived radius `r = k/(2a)` is finite with
`0 < |r| < 1` yields slot 3 exactly `+1/2` when `r > 0` and exactly `-1/2`
when `r ≤ 0`. -/
theorem c3_normalize_regime_selection (c b0 b1 a k : ℝ) (x y z : ExtNum) :
    (a = 0 → ¬(b0 = 0 ∧ b1 = 0) → 0 ≤ k →
      (normalize ⟨fin c, fin b0, fin b1, fin a, fin k, x, y, z⟩).a = fin 0 ∧
      (normalize ⟨fin c, fin b0, fin b1, fin a, fin k, x, y, z⟩).k = fin 1 ∧
      (normalize ⟨fin c, fin b0, fin b1, fin a, fin k, x, y, z⟩).b0 *
          (normalize ⟨fin c, fin b0, fin b1, fin a, fin k, x, y, z⟩).b0 +
        (normalize ⟨fin c, fin b0, fin b1, fin a, fin k, x, y, z⟩).b1 *
          (normalize ⟨fin c, fin b0, fin b1, fin a, fin k, x, y, z⟩).b1 = fin 1) ∧
    (a ≠ 0 → 0 < |k / (2 * a)| → |k / (2 * a)| < 1 →
      (0 < k / (2 * a) →
        (normalize ⟨fin c, fin b0, fin b1, fin a, fin k, x, y, z⟩).a = fin (1 / 2)) ∧
      (k / (2 * a) ≤ 0 →
        (normalize ⟨fin c, fin b0, fin b1, fin a, fin k, x, y, z⟩).a = fin (-1 / 2))) := by
  constructor
  · intro ha hb hk
    subst ha
    have hsum : b0 * b0 + b1 * b1 ≠ 0 := by
      intro h0
      have hb0 : b0 = 0 := by nlinarith [mul_self_nonneg b0, mul_self_nonneg b1]
      have hb1 : b1 = 0 := by nlinarith [mul_self_nonneg b0, mul_self_nonneg b1]
      exact hb ⟨hb0, hb1⟩
    have hspos : 0 < b0 * b0 + b1 * b1 :=
      lt_of_le_of_ne (add_nonneg (mul_self_nonneg b0) (mul_self_nonneg b1)) (Ne.symm hsum)
    have hone : b0 / Real.sqrt (b0 * b0 + b1 * b1) * (b0 / Real.sqrt (b0 * b0 + b1 * b1)) +
        b1 / Real.sqrt (b0 * b0 + b1 * b1) * (b1 / Real.sqrt (b0 * b0 + b1 * b1)) = 1 := by
      rw [div_mul_div_comm, div_mul_div_comm, Real.mul_self_sqrt hspos.le, div_add_div_same]
      exact div_self hsum
    rw [normalize_line_eval c b0 b1 k x y z hsum hk]
    exact ⟨rfl, rfl, by simp [hone]⟩
  · intro ha hpos hlt
    constructor
    · intro hsgn
      rw [normalize_small_pos_eval c b0 b1 a k x y z ha hlt hsgn]
    · intro hsgn
      rw [normalize_small_nonpos_eval c b0 b1 a k x y z ha hlt hsgn]

/-- Witness for C3: the line stdform `[0, 1, 0, 0, 1]` gets slot 3 `= 0`, and
the circle stdform `[0, 0, 0, 1, 1]` (derived radius `r = 1/2`) gets slot 3
`= +1/2` exactly. -/
theorem c3_normalize_regime_selection_witness :
    (normalize ⟨fin 0, fin 1, fin 0, fin 0, fin 1, fin 0, fin 0, fin 0⟩).a = fin 0 ∧
    (normalize ⟨fin 0, fin 0, fin 0, fin 1, fin 1, fin 0, fin 0, fin 0⟩).a = fin (1 / 2) :=
  ⟨((c3_normalize_regime_selection 0 1 0 0 1 (fin 0) (fin 0) (fin 0)).1 rfl
      (by norm_num) (by norm_num)).1,
   ((c3_normalize_regime_selection 0 0 0 1 1 (fin 0) (fin 0) (fin 0)).2 (by norm_num)
      (by norm_num) (by rw [abs_lt]; constructor <;> norm_num)).1 (by norm_num)⟩

/-- C3 counterexample: the line input `[0, 1, 0, 0, -1]` (`a = 0`,
`(b0, b1) ≠ (0, 0)` but `k = -1 < 0`) has derived `r = -1/0 = -Infinity`,
lands in the large-radius branch, and its output slots 1–2 are `NaN`:
they do not form a unit vector. -/
theorem c3_counterexample :
    (normalize ⟨fin 0, fin 1, fin 0, fin 0, fin (-1), fin 0, fin 0, fin 0⟩).b0 *
        (normalize ⟨fin 0, fin 1, fin 0, fin 0, fin (-1), fin 0, fin 0, fin 0⟩).b0 +
      (normalize ⟨fin 0, fin 1, fin 0, fin 0, fin (-1), fin 0, fin 0, fin 0⟩).b1 *
        (normalize ⟨fin 0, fin 1, fin 0, fin 0, fin (-1), fin 0, fin 0, fin 0⟩).b1
      = ExtNum.nan ∧
    (normalize ⟨fin 0, fin 1, fin 0, fin 0, fin (-1), fin 0, fin 0, fin 0⟩).b0 *
        (normalize ⟨fin 0, fin 1, fin 0, fin 0, fin (-1), fin 0, fin 0, fin 0⟩).b0 +
      (normalize ⟨fin 0, fin 1, fin 0, fin 0, fin (-1), fin 0, fin 0, fin 0⟩).b1 *
        (normalize ⟨fin 0, fin 1, fin 0, fin 0, fin (-1), fin 0, fin 0, fin 0⟩).b1
      ≠ fin 1 := by
  constructor <;>
    simp [normalize, fin_div_zero_neg (show (-1 : ℝ) < 0 by norm_num)]

/-! ## Claim C4: transpose involution -/

/-- The length of `matTranspose M` is the column count `(M.headD []).length`. -/
theorem matTranspose_length (M : List (List ℝ)) :
    (matTranspose M).length = (M.headD []).length := by
  simp [matTranspose]

/-- Row `i` of `matTranspose M` (read with defaults) is column `i` of `M`. -/
theorem matTranspose_getD (M : List (List ℝ)) (i : ℕ) (hi : i < (M.headD []).length) :
    (matTranspose M).getD i [] =
      (List.range M.length).map (fun j => (M.getD j []).getD i 0) := by
  rw [List.getD_eq_getElem _ _ (by simpa [matTranspose] using hi)]
  simp [matTranspose]

/-- C4 (amended): `matTranspose` is an involution on every rectangular matrix
that is empty or has rows of positive length.  (For a nonempty matrix whose
rows have length zero the row count is lost — see the counterexample — so the
claim's "including … matrices with rows of length zero" fails.) -/
theorem c4_matTranspose_involution (M : List (List ℝ))
    (hrect : ∀ row ∈ M, row.length = (M.headD []).length)
    (hcols : M = [] ∨ (M.headD []).length ≠ 0) :
    matTranspose (matTranspose M) = M := by
  rcases hcols with hM | hn
  · subst hM
    rfl
  · have hnpos : 0 < (M.headD []).length := Nat.pos_of_ne_zero hn
    have hTlen : (matTranspose M).length = (M.headD []).length := matTranspose_length M
    have hThead : ((matTranspose M).headD []).length = M.length := by
      obtain ⟨n', hn'⟩ : ∃ n', (M.headD []).length = n' + 1 :=
        ⟨_, (Nat.succ_pred_eq_of_pos hnpos).symm⟩
      rw [show matTranspose M = (List.range ((M.headD []).length)).map
          (fun i => (List.range M.length).map (fun j => (M.getD j []).getD i 0)) from rfl]
      rw [hn', List.range_succ_eq_map, List.map_cons, List.headD_cons, List.length_map,
        List.length_range]
    have hsh : matTranspose (matTranspose M) =
        (List.range (((matTranspose M).headD []).length)).map
          (fun i => (List.range ((matTranspose M).length)).map
            (fun j => ((matTranspose M).getD j []).getD i 0)) := rfl
    rw [hsh, hThead, hTlen]
    apply List.ext_getElem
    · simp
    · intro j hj1 hj2
      have hrowlen : M[j].length = (M.headD []).length := hrect M[j] (List.getElem_mem hj2)
      simp only [List.getElem_map, List.getElem_range]
      apply List.ext_getElem
      · simp [hrowlen]
      · intro i hi1 hi2
        simp only [List.getElem_map, List.getElem_range]
        have hi : i < (M.headD []).length := by
          simpa using hi1
        rw [matTranspose_getD M i hi,
          List.getD_eq_getElem _ _ (by simpa using hj2)]
        simp only [List.getElem_map, List.getElem_range]
        rw [List.getD_eq_getElem _ _ hj2,
          List.getD_eq_getElem _ _ (show i < M[j].length by rw [hrowlen]; exact hi)]

/-- Witness for C4 at a concrete rectangular `3 × 2` matrix. -/
theorem c4_matTranspose_involution_witness :
    matTranspose (matTranspose [[(1 : ℝ), 2], [3, 4], [5, 6]]) =
      [[(1 : ℝ), 2], [3, 4], [5, 6]] :=
  c4_matTranspose_involution [[(1 : ℝ), 2], [3, 4], [5, 6]]
    (by intro row hr; fin_cases hr <;> rfl) (Or.inr (by simp))

/-- C4 counterexample: `[[]]` is rectangular (one row of length zero), but
`matTranspose [[]] = []` and transposing again gives `[]`, not `[[]]`:
the involution fails for nonempty matrices with zero-length rows. -/
theorem c4_counterexample :
    matTranspose (matTranspose [([] : List ℝ)]) = [] ∧
    matTranspose (matTranspose [([] : List ℝ)]) ≠ [([] : List ℝ)] := by
  constructor
  · rfl
  · simp [matTranspose]

/-! ## Claim C5: the unrolled `n == 3` path of `matVecMult` -/

/-- C5: on a matrix whose rows have length 3 and a vector of length 3, the
unrolled fast path of `matVecMult` agrees exactly with the general
accumulation-loop path. -/
theorem c5_matVecMult_unrolled_agrees_general (mat : List (List ℝ)) (vec : List ℝ)
    (hrow : ∀ row ∈ mat, row.length = 3) (hvec : vec.length = 3) :
    matVecMult mat vec = matVecMultGeneralPath mat vec := by
  unfold matVecMult matVecMultGeneralPath
  rw [if_pos hvec, hvec]
  refine List.map_congr_left ?_
  intro row hr
  rw [show List.range 3 = [0, 1, 2] from rfl]
  simp only [List.foldl_cons, List.foldl_nil]
  ring

/-- Witness for C5 at a concrete `2 × 3` matrix and length-3 vector. -/
theorem c5_matVecMult_unrolled_agrees_general_witness :
    matVecMult [[(1 : ℝ), 2, 3], [4, 5, 6]] [7, 8, 9] =
      matVecMultGeneralPath [[(1 : ℝ), 2, 3], [4, 5, 6]] [7, 8, 9] :=
  c5_matVecMult_unrolled_agrees_general [[(1 : ℝ), 2, 3], [4, 5, 6]] [7, 8, 9]
    (by intro row hr; fin_cases hr <;> rfl) rfl

end Math

/-! ## Claim C6: the memoizing combinator -/

/-- A faithful cache only answers with `f` of the key. -/
theorem cacheLookup_faithful {α β : Type} [DecidableEq α] (f : α → β)
    (cache : List (α × β)) (hc : FaithfulCache f cache) (x : α) (v : β)
    (h : cacheLookup cache x = some v) : v = f x := by
  induction cache with
  | nil => simp [cacheLookup] at h
  | cons p rest ih =>
    rw [cacheLookup] at h
    by_cases hx : x = p.1
    · rw [if_pos hx] at h
      have hv : p.2 = v := by
        exact Option.some.inj h
      rw [← hv, hc p (List.mem_cons_self p rest), hx]
    · rw [if_neg hx] at h
      exact ih (fun q hq => hc q (List.mem_cons_of_mem p hq)) h

/-- Recording a freshly computed value keeps a cache faithful. -/
theorem faithfulCache_insert {α β : Type} (f : α → β) (cache : List (α × β))
    (hc : FaithfulCache f cache) (x : α) : FaithfulCache f ((x, f x) :: cache) := by
  intro p hp
  rcases List.mem_cons.mp hp with hp | hp
  · rw [hp]
  · exact hc p hp

/-- Memoization transparency: starting from any faithful cache, the wrapped
function returns exactly `f` of each argument, in order. -/
theorem memoRun_results {α β : Type} [DecidableEq α] (f : α → β) (xs : List α) :
    ∀ cache, FaithfulCache f cache → (memoRun f xs cache).1 = xs.map f := by
  induction xs with
  | nil => intro cache _; simp [memoRun]
  | cons x xs ih =>
    intro cache hc
    rcases hlook : cacheLookup cache x with _ | v
    · simp only [memoRun, memoApply, hlook, List.map_cons]
      rw [ih _ (faithfulCache_insert f cache hc x)]
    · simp only [memoRun, memoApply, hlook, List.map_cons]
      rw [cacheLookup_faithful f cache hc x v hlook, ih cache hc]

/-- The new cache entry makes a key hit that previously missed and changes no
other lookup. -/
theorem cacheLookup_cons {α β : Type} [DecidableEq α] (x a : α) (v : β)
    (cache : List (α × β)) :
    cacheLookup ((x, v) :: cache) a = if a = x then some v else cacheLookup cache a := rfl

/-- Evaluation counting: a run from `cache` evaluates `f` at most once per
distinct argument that `cache` does not already hold. -/
theorem memoRun_evals_le {α β : Type} [DecidableEq α] (f : α → β) (xs : List α) :
    ∀ cache, (memoRun f xs cache).2.2 ≤
      (xs.filter (fun a => (cacheLookup cache a).isNone)).dedup.length := by
  induction xs with
  | nil => intro cache; simp [memoRun]
  | cons x xs ih =>
    intro cache
    rcases hlook : cacheLookup cache x with _ | v
    · simp only [memoRun, memoApply, hlook]
      have hcondx : ((cacheLookup cache x).isNone : Bool) = true := by
        rw [hlook]; rfl
      rw [List.filter_cons_of_pos (by simpa using hcondx)]
      have hfilter : xs.filter (fun a => (cacheLookup ((x, f x) :: cache) a).isNone) =
          (xs.filter (fun a => (cacheLookup cache a).isNone)).filter (fun a => a ≠ x) := by
        rw [List.filter_filter]
        apply List.filter_congr
        intro a _
        rw [cacheLookup_cons]
        by_cases hax : a = x
        · simp [hax]
        · simp [hax]
      have hcard : ((xs.filter (fun a => (cacheLookup cache a).isNone)).filter
            (fun a => a ≠ x)).dedup.length + 1 ≤
          (x :: xs.filter (fun a => (cacheLookup cache a).isNone)).dedup.length := by
        rw [← List.card_toFinset, ← List.card_toFinset, List.toFinset_cons,
          List.toFinset_filter]
        have hins : insert x (xs.filter (fun a => (cacheLookup cache a).isNone)).toFinset =
            insert x ((xs.filter (fun a => (cacheLookup cache a).isNone)).toFinset.filter
              (fun a => a ≠ x)) := by
          ext b
          by_cases hbx : b = x <;> simp [hbx]
        rw [hins, Finset.card_insert_of_not_mem (by simp)]
        simp
      calc (if true = true then 1 else 0) + (memoRun f xs ((x, f x) :: cache)).2.2
          = (memoRun f xs ((x, f x) :: cache)).2.2 + 1 := by
            simp [Nat.add_comm]
        _ ≤ (xs.filter (fun a => (cacheLookup ((x, f x) :: cache) a).isNone)).dedup.length
              + 1 := by
            exact Nat.add_le_add_right (ih _) 1
        _ = ((xs.filter (fun a => (cacheLookup cache a).isNone)).filter
              (fun a => a ≠ x)).dedup.length + 1 := by rw [hfilter]
        _ ≤ _ := hcard
    · simp only [memoRun, memoApply, hlook]
      have hcondx : ((cacheLookup cache x).isNone : Bool) = false := by
        rw [hlook]; rfl
      rw [List.filter_cons_of_neg (by simp [hcondx])]
      simpa using ih cache

/-- C6: memoization transparency (`memo(f)(x) == f(x)` for every call
sequence, starting from the empty cache), evaluation of the underlying `f`
at most once per distinct argument, and idempotent wrapping (`JXG.memoizer`
applied to an already-wrapped function returns the existing wrapper, so
wrapping twice is the same as wrapping once). -/
theorem c6_memoizer_contract {α β : Type} [DecidableEq α] :
    (∀ (f : α → β) (xs : List α), (memoRun f xs []).1 = xs.map f) ∧
    (∀ (f : α → β) (xs : List α), (memoRun f xs []).2.2 ≤ xs.dedup.length) ∧
    (∀ (g : FnObj α β) (fresh : ℕ),
      memoizer (memoizer g fresh).1 (memoizer g fresh).2.2 = memoizer g fresh) := by
  refine ⟨?_, ?_, ?_⟩
  · intro f xs
    exact memoRun_results f xs [] (fun p hp => absurd hp (List.not_mem_nil p))
  · intro f xs
    have h := memoRun_evals_le f xs []
    simpa [cacheLookup] using h
  · intro g fresh
    rcases g with ⟨raw, _ | w⟩ <;> simp [memoizer]

/-- Witness for C6 with the squaring function on `ℕ` and the call sequence
`[3, 3, 4]`: the results are `f` of the arguments and at most two
evaluations happen. -/
theorem c6_memoizer_contract_witness :
    (memoRun (fun n : ℕ => n * n) [3, 3, 4] []).1 = [3, 3, 4].map (fun n : ℕ => n * n) ∧
    (memoRun (fun n : ℕ => n * n) [3, 3, 4] []).2.2 ≤ [3, 3, 4].dedup.length :=
  ⟨(c6_memoizer_contract.1) (fun n : ℕ => n * n) [3, 3, 4],
   (c6_memoizer_contract.2.1) (fun n : ℕ => n * n) [3, 3, 4]⟩

namespace Math

open ExtNum

/-! ## Claim C7: the `pow` contract -/

/-- C7 (amended): `pow(0,0) = 1`; `pow(0,b) = 0` for every `b ≠ 0` (including
negative and non-integer `b`); for integer exponents `pow` is the standard
real power; for non-integer `b` and `a > 0` it is `exp(b·ln a)`; and for
non-integer `b` and `a < 0` (not `a ≤ 0`: at `a = 0` the zero-base rule above
answers `0`, see the counterexample) it is `NaN`. -/
theorem c7_pow_contract (a b : ℝ) (m : ℤ) :
    pow 0 0 = fin 1 ∧
    (b ≠ 0 → pow 0 b = fin 0) ∧
    pow a (m : ℝ) = fin (a ^ m) ∧
    (0 < a → (∀ j : ℤ, (j : ℝ) ≠ b) → pow a b = fin (Real.exp (b * Real.log a))) ∧
    (a < 0 → (∀ j : ℤ, (j : ℝ) ≠ b) → pow a b = ExtNum.nan) := by
  refine ⟨by norm_num [pow], fun hb => by simp [pow, hb], ?_, ?_, ?_⟩
  · by_cases ha : a = 0
    · subst ha
      by_cases hm : m = 0
      · subst hm
        norm_num [pow]
      · have hmr : ((m : ℝ)) ≠ 0 := by
          exact_mod_cast hm
        simp [pow, hmr, zero_zpow m hm]
    · simp [pow, ha, Int.floor_intCast]
  · intro ha hj
    have hfl : (⌊b⌋ : ℝ) ≠ b := hj ⌊b⌋
    simp [pow, ne_of_gt ha, hfl, ha, abs_of_pos ha]
  · intro ha hj
    have hfl : (⌊b⌋ : ℝ) ≠ b := hj ⌊b⌋
    simp [pow, ne_of_lt ha, hfl, not_lt.mpr ha.le]

/-- Witness for C7: `pow(0,0) = 1`, `pow(0,3) = 0`, `pow(2,3) = 8`,
`pow(-2, 1/2)` is `NaN`. -/
theorem c7_pow_contract_witness :
    pow 0 0 = fin 1 ∧ pow 0 3 = fin 0 ∧ pow 2 ((3 : ℤ) : ℝ) = fin ((2 : ℝ) ^ (3 : ℤ)) ∧
    pow (-2) (1/2) = ExtNum.nan := by
  have hnonint : ∀ j : ℤ, (j : ℝ) ≠ (1/2 : ℝ) := by
    intro j hj
    have h2 : (2 * j : ℤ) = 1 := by
      have : (2 : ℝ) * (j : ℝ) = 1 := by rw [hj]; norm_num
      exact_mod_cast this
    omega
  exact ⟨(c7_pow_contract 0 0 0).1, (c7_pow_contract 0 3 0).2.1 (by norm_num),
    (c7_pow_contract 2 0 3).2.2.1,
    (c7_pow_contract (-2) (1/2) 0).2.2.2.2 (by norm_num) hnonint⟩

/-- C7 counterexample: at `a = 0 ≤ 0` and the non-integer `b = 1/2`, the code
returns `0` (via the zero-base rule, which fires first), not `NaN` as the
claim's last clause (`b` non-integer and `a ≤ 0` gives `NaN`) states. -/
theorem c7_counterexample :
    (∀ j : ℤ, (j : ℝ) ≠ (1/2 : ℝ)) ∧ (0 : ℝ) ≤ 0 ∧
    pow 0 (1/2) = fin 0 ∧ pow 0 (1/2) ≠ ExtNum.nan := by
  have hval : pow 0 (1/2) = fin 0 := by norm_num [pow]
  refine ⟨?_, le_refl 0, hval, by rw [hval]; simp⟩
  intro j hj
  have h2 : (2 * j : ℤ) = 1 := by
    have : (2 : ℝ) * (j : ℝ) = 1 := by rw [hj]; norm_num
    exact_mod_cast this
  omega

/-! ## Claim C8: the `binomial` contract -/

/-- The multiplicative loop of `binomial` computes the binomial coefficient:
after `j ≤ N` steps the accumulator is `N.choose j`. -/
theorem binomial_foldl_choose (N : ℕ) :
    ∀ j : ℕ, j ≤ N →
      (List.range j).foldl (fun b i => b * ((N : ℝ) - (i : ℕ)) / ((i : ℕ) + 1)) 1 =
        (N.choose j : ℝ) := by
  intro j
  induction j with
  | zero => intro _; simp
  | succ j ih =>
    intro hj
    rw [List.range_succ, List.foldl_append, ih (Nat.le_of_succ_le hj)]
    simp only [List.foldl_cons, List.foldl_nil]
    have key : (N.choose (j + 1) : ℝ) * ((j : ℝ) + 1) = (N.choose j : ℝ) * ((N : ℝ) - j) := by
      have h := Nat.choose_succ_right_eq N j
      have hcast := congrArg (fun t : ℕ => (t : ℝ)) h
      push_cast [Nat.cast_sub (Nat.le_of_succ_le hj)] at hcast
      exact hcast
    rw [← key, mul_div_cancel_right₀ _ (by positivity)]

/-- C8: `binomial` returns `0` when `k > n` or `k < 0`; otherwise `1` when
`k = 0` or `k = n`; otherwise the iterative product
`∏_{i=0}^{k-1} (n-i)/(i+1)`; and on `0 ≤ k ≤ n` the result is the binomial
coefficient `n choose k`. -/
theorem c8_binomial_contract (n k : ℤ) :
    ((k > n ∨ k < 0) → binomial n k = 0) ∧
    (¬(k > n ∨ k < 0) → (k = 0 ∨ k = n) → binomial n k = 1) ∧
    (¬(k > n ∨ k < 0) → ¬(k = 0 ∨ k = n) →
      binomial n k =
        (List.range k.toNat).foldl (fun b i => b * ((n : ℝ) - (i : ℕ)) / ((i : ℕ) + 1)) 1) ∧
    (0 ≤ k → k ≤ n → binomial n k = (n.toNat.choose k.toNat : ℝ)) := by
  refine ⟨fun h => by simp [binomial, h], fun h1 h2 => by simp [binomial, h1, h2],
    fun h1 h2 => by simp [binomial, h1, h2], ?_⟩
  intro h0 hkn
  have hn0 : 0 ≤ n := h0.trans hkn
  have h1 : ¬(k > n ∨ k < 0) := by omega
  have hcast : ((n : ℝ)) = ((n.toNat : ℕ) : ℝ) := by
    exact_mod_cast (Int.toNat_of_nonneg hn0).symm
  by_cases h2 : k = 0 ∨ k = n
  · rcases h2 with rfl | rfl
    · simp [binomial, h1, hn0]
    · simp [binomial, h1, hn0, Nat.choose_self]
  · rw [show binomial n k =
        (List.range k.toNat).foldl (fun b i => b * ((n : ℝ) - (i : ℕ)) / ((i : ℕ) + 1)) 1
        from by simp [binomial, h1, h2]]
    simp only [hcast]
    exact binomial_foldl_choose n.toNat k.toNat (Int.toNat_le_toNat hkn)

/-- Witness for C8: `binomial(5,2) = 10`, `binomial(5,6) = 0`,
`binomial(5,0) = 1`. -/
theorem c8_binomial_contract_witness :
    binomial 5 2 = 10 ∧ binomial 5 6 = 0 ∧ binomial 5 0 = 1 := by
  refine ⟨?_, (c8_binomial_contract 5 6).1 (by norm_num),
    (c8_binomial_contract 5 0).2.1 (by norm_num) (Or.inl rfl)⟩
  have h := (c8_binomial_contract 5 2).2.2.2 (by norm_num) (by norm_num)
  rw [h]
  norm_num [Nat.choose]

/-! ## Claims C9 and C10: the `factorial` contract and its termination -/

/-- On natural-number inputs the recursion computes the usual factorial. -/
theorem factorial_nat_eval (N : ℕ) : factorial (N : ℝ) = fin ((N.factorial : ℕ) : ℝ) := by
  induction N with
  | zero =>
    rw [factorial]
    norm_num [Nat.factorial]
  | succ N ih =>
    rcases Nat.eq_zero_or_pos N with rfl | hN
    · rw [factorial]
      norm_num [Nat.factorial]
    · rw [factorial, if_neg (not_lt.mpr (by positivity)),
        if_neg (by
          rintro (h | h)
          · exact absurd (by exact_mod_cast h : (N + 1 : ℕ) = 0) (by omega)
          · exact absurd (by exact_mod_cast h : (N + 1 : ℕ) = 1) (by omega)),
        show ((N + 1 : ℕ) : ℝ) - 1 = (N : ℝ) by push_cast; ring, ih, ExtNum.fin_mul_fin]
      congr 1
      push_cast [Nat.factorial_succ]
      ring

/-- C9: for every integer `n`, `factorial` returns `NaN` when `n < 0`,
returns `1` when `n ∈ {0, 1}`, otherwise recurses as `n * factorial(n-1)`,
and therefore computes `n!` for every `n ≥ 0`. -/
theorem c9_factorial_contract (m : ℤ) :
    ((m : ℝ) < 0 → factorial (m : ℝ) = ExtNum.nan) ∧
    (m = 0 ∨ m = 1 → factorial (m : ℝ) = fin 1) ∧
    (¬(m : ℝ) < 0 → ¬((m : ℝ) = 0 ∨ (m : ℝ) = 1) →
      factorial (m : ℝ) = fin (m : ℝ) * factorial ((m : ℝ) - 1)) ∧
    (0 ≤ m → factorial (m : ℝ) = fin ((m.toNat.factorial : ℕ) : ℝ)) := by
  refine ⟨fun h => by rw [factorial, if_pos h], ?_, ?_, ?_⟩
  · rintro (rfl | rfl) <;> (rw [factorial]; norm_num)
  · intro h1 h2
    rw [factorial, if_neg h1, if_neg h2]
  · intro h0
    have hcast : ((m.toNat : ℕ) : ℝ) = (m : ℝ) := by
      exact_mod_cast Int.toNat_of_nonneg h0
    rw [← hcast]
    exact factorial_nat_eval m.toNat

/-- Witness for C9: `factorial(5) = 120` and `factorial(-1)` is `NaN`. -/
theorem c9_factorial_contract_witness :
    factorial ((5 : ℤ) : ℝ) = fin 120 ∧ factorial ((-1 : ℤ) : ℝ) = ExtNum.nan := by
  constructor
  · have h := (c9_factorial_contract 5).2.2.2 (by norm_num)
    rw [h]
    norm_num [Nat.factorial]
  · exact (c9_factorial_contract (-1)).1 (by norm_num)

/-- Each recursive step of `factorial` decreases the natural ceiling of the
(positive) argument. -/
theorem ceil_sub_one_lt {y : ℝ} (hy : 0 < y) : ⌈y - 1⌉₊ < ⌈y⌉₊ := by
  have hceil : 0 < ⌈y⌉₊ := Nat.ceil_pos.mpr hy
  have hle : ⌈y - 1⌉₊ ≤ ⌈y⌉₊ - 1 := by
    apply Nat.ceil_le.mpr
    have hcast : ((⌈y⌉₊ - 1 : ℕ) : ℝ) = (⌈y⌉₊ : ℝ) - 1 := by
      push_cast [Nat.cast_sub hceil]
      ring
    rw [hcast]
    have := Nat.le_ceil y
    linarith
  exact lt_of_le_of_lt hle (Nat.sub_lt hceil one_pos)

/-- C10: `factorial` is total on every real argument (the recursion, which
decreases the argument by exactly `1`, stops as soon as the argument is
negative or in `{0, 1}` — totality is what lets `factorial` be defined as a
function on all of `ℝ` at all), and on every non-integer real argument the
recursion bottoms out in the `n < 0` branch, so the result is `NaN`. -/
theorem c10_factorial_terminates_nonint_nan (x : ℝ) :
    (x < 0 → factorial x = ExtNum.nan) ∧
    ((∀ m : ℤ, (m : ℝ) ≠ x) → factorial x = ExtNum.nan) := by
  have main : ∀ (N : ℕ) (y : ℝ), ⌈y⌉₊ = N → (∀ m : ℤ, (m : ℝ) ≠ y) →
      factorial y = ExtNum.nan := by
    intro N
    induction N using Nat.strong_induction_on with
    | _ N ih =>
      intro y hN hm
      by_cases hy : y < 0
      · rw [factorial, if_pos hy]
      · have hy0 : y ≠ 0 := fun h => hm 0 (by rw [h]; norm_num)
        have hy1 : y ≠ 1 := fun h => hm 1 (by rw [h]; norm_num)
        have hypos : 0 < y := lt_of_le_of_ne (not_lt.mp hy) (Ne.symm hy0)
        rw [factorial, if_neg hy, if_neg (by tauto)]
        have hm' : ∀ m : ℤ, (m : ℝ) ≠ y - 1 := by
          intro m hcon
          exact hm (m + 1) (by push_cast; linarith)
        rw [ih ⌈y - 1⌉₊ (hN ▸ ceil_sub_one_lt hypos) (y - 1) rfl hm']
        simp
  exact ⟨fun h => by rw [factorial, if_pos h], fun hm => main ⌈x⌉₊ x rfl hm⟩

/-- Witness for C10: `factorial(-1)` and `factorial(1/2)` are both `NaN` (the
latter via the chain `1/2 → -1/2`). -/
theorem c10_factorial_terminates_nonint_nan_witness :
    factorial (-1 : ℝ) = ExtNum.nan ∧ factorial ((1 : ℝ)/2) = ExtNum.nan := by
  constructor
  · exact (c10_factorial_terminates_nonint_nan (-1)).1 (by norm_num)
  · refine (c10_factorial_terminates_nonint_nan ((1 : ℝ)/2)).2 ?_
    intro m hm
    have h2 : (2 * m : ℤ) = 1 := by
      have : (2 : ℝ) * (m : ℝ) = 1 := by rw [hm]; norm_num
      exact_mod_cast this
    omega

end Math

end JXG
